import Mathlib

/-!
Verification development for the `product-match` repository (`solver.py`).

The solver matches free-text product listings against a product catalog.
We give a shallow embedding of the core code:

* Python strings are modelled as `List Char` (`Str`);
* the patterns produced by `generate_regex` are modelled by the `Pattern`
  structure together with `patFound`, the semantics of
  `len(re.findall(pattern, text)) > 0` for the specific pattern shape the
  solver generates;
* Python exceptions (`KeyError` from a missing dict field, `IndexError`
  from indexing an empty string or list) are modelled with `Except PyErr`;
* the `defaultdict` index is modelled as an association list whose lookup
  operation `ddGetD` inserts an empty entry on a missing key, exactly as
  `defaultdict.__getitem__` does.

String functions (`upper`, `split`, `replace`, `isdigit`, `join`) are
modelled on the ASCII range, which covers all inputs appearing in the
claims.
-/

abbrev Str := List Char

instance {e a : Type} [DecidableEq e] [DecidableEq a] :
    DecidableEq (Except e a) := fun x y =>
  match x, y with
  | .ok u, .ok v =>
    if h : u = v then .isTrue (by rw [h]) else .isFalse (by simp [h])
  | .error u, .error v =>
    if h : u = v then .isTrue (by rw [h]) else .isFalse (by simp [h])
  | .ok _, .error _ => .isFalse (by simp)
  | .error _, .ok _ => .isFalse (by simp)

inductive PyErr where
  | keyError
  | indexError
deriving DecidableEq

/-- ASCII decimal digits: the characters matched by `str.isdigit` and by the
regex class `\d` (restricted to ASCII). -/
def digitChars : List Char := ['0','1','2','3','4','5','6','7','8','9']

def isDigitChar (c : Char) : Bool := decide (c ∈ digitChars)

/-- Characters matched by the regex class `\s` and split on by `str.split()`
(ASCII range). -/
def wsChars : List Char := [' ', '\t', '\n', '\r', '\x0b', '\x0c']

def isWsChar (c : Char) : Bool := decide (c ∈ wsChars)

/-- Python `s.isdigit()`: non-empty and all characters are digits. -/
def pyIsDigit (s : Str) : Bool := !s.isEmpty && s.all isDigitChar

/-- Python `s.upper()` (ASCII range). -/
def pyUpper (s : Str) : Str := s.map Char.toUpper

/-- Python `s.replace(a, b)` for single characters `a`, `b`. -/
def pyReplaceChar (a b : Char) (s : Str) : Str :=
  s.map (fun c => if c == a then b else c)

/-- Python `s.replace(a, '')` for a single character `a`. -/
def pyRemoveChar (a : Char) (s : Str) : Str :=
  s.filter (fun c => !(c == a))

/-- Function `get_manufacturer` from solver.py: on the empty string the name is set to
`'unknown'` (and is *not* uppercased); otherwise the name is uppercased,
hyphens are replaced by spaces and periods removed.  Finally the first
`min(4, len(man))` characters are returned. -/
def get_manufacturer (man : Str) : Str :=
  let man' : Str :=
    if man.length = 0 then "unknown".data
    else pyRemoveChar '.' (pyReplaceChar '-' ' ' (pyUpper man))
  man'.take (min 4 man'.length)

/-!
## The pattern model

`generate_regex(target)` builds the pattern

    ^(.*[^\d])?  (c₁ -?\s? c₂ -?\s? ... cₙ)  ([^\d].*)?$

where `c₁ ... cₙ` are the characters of the normalized target
(`target.upper().replace('-','').replace(' ','')`), the leading guard is
present exactly when `c₁` is a digit and the trailing guard exactly when
`cₙ` is a digit.  On the empty normalized target, `target[-1]` raises
`IndexError`.

A compiled pattern is represented by its three components. -/

structure Pattern where
  startsD : Bool
  core : Str
  endsD : Bool
deriving DecidableEq

/-- Normalization performed at the top of `generate_regex`:
`target.upper().replace('-', '').replace(' ', '')`. -/
def normTarget (target : Str) : Str :=
  pyRemoveChar ' ' (pyRemoveChar '-' (pyUpper target))

/-- Function `generate_regex` from solver.py.  `IndexError` is raised by `target[-1]`
when the normalized target is empty. -/
def generate_regex (target : Str) : Except PyErr Pattern :=
  match (normTarget target).getLast?, (normTarget target).head? with
  | some lc, some hc =>
    .ok ⟨isDigitChar hc, normTarget target, isDigitChar lc⟩
  | _, _ => .error .indexError

/-- Matching semantics of the pattern core `c₁ -?\s? c₂ -?\s? ... cₙ`
in continuation-passing style: `coreMatchP k core s = true` iff the core can
consume a prefix of `s` (one `cᵢ` each, with an optional hyphen and an
optional whitespace character between consecutive characters) such that the
continuation `k` accepts the remaining suffix. -/
def coreMatchP (k : Str → Bool) : Str → Str → Bool
  | [], s => k s
  | [c], s =>
    match s with
    | [] => false
    | x :: s1 => x == c && k s1
  | c :: c2 :: rest, s =>
    match s with
    | [] => false
    | x :: s1 =>
      x == c &&
        (coreMatchP k (c2 :: rest) s1 ||
          match s1 with
          | [] => false
          | y :: s2 =>
            (y == '-' && (coreMatchP k (c2 :: rest) s2 ||
                match s2 with
                | [] => false
                | z :: s3 => isWsChar z && coreMatchP k (c2 :: rest) s3)) ||
            (isWsChar y && coreMatchP k (c2 :: rest) s2))

/-- Anchor `$` of Python `re`: end of string, or just before a final newline. -/
def dollarAt (rem : Str) : Bool := rem == ([] : Str) || rem == ['\n']

def noNl (s : Str) : Bool := s.all (fun c => !(c == '\n'))

/-- Semantics of `.*$` applied to `rem`: `.*` consumes non-newline
characters, then `$` must hold. -/
def dotStarDollar (rem : Str) : Bool :=
  noNl rem || (rem.dropWhile (fun c => !(c == '\n'))) == ['\n']

/-- Semantics of the optional trailing guard `([^\d].*)?$` (present iff the
normalized target ends in a digit): either `$` holds right after the core, or
the next character is a non-digit followed by `.*$`. -/
def tailOk (endsD : Bool) (rem : Str) : Bool :=
  if endsD then
    dollarAt rem ||
      (match rem with
       | [] => false
       | c :: rest => !isDigitChar c && dotStarDollar rest)
  else true

/-- Semantics of the group in the leading guard `^(.*[^\d])?` when it is
non-empty: scanning the text, some position holds a non-digit character
(preceded only by non-newline characters, consumed by `.*`) after which the
core (and the continuation) match. -/
def guardScan (k : Str → Bool) (core : Str) : Str → Bool
  | [] => false
  | c :: rest =>
    (!isDigitChar c && coreMatchP k core rest) ||
    (!(c == '\n') && guardScan k core rest)

/-- Semantics of `len(re.findall(pattern, text)) > 0` for the generated
pattern: with the leading guard the match is anchored at position 0, either
with the core starting immediately or after `(.*[^\d])`; without it the core
may start at any position of `text`. -/
def patFound (p : Pattern) (text : Str) : Bool :=
  if p.startsD then
    coreMatchP (tailOk p.endsD) p.core text ||
      guardScan (tailOk p.endsD) p.core text
  else
    text.tails.any (fun s => coreMatchP (tailOk p.endsD) p.core s)

-- docstring examples of `generate_regex`:
-- A100 matches A-100; B52 matches B 52; C100 does NOT match C1000;
-- 150D does NOT match 2150D

/-!
## Python dictionaries

Dictionaries keyed by strings are modelled as association lists in insertion
order, as Python dicts preserve insertion order.  `alAppend` models
`d[k].append(x)` on a `defaultdict(list)` and `mwInc` models
`m[man][w] += 1` on a nested `defaultdict(lambda: defaultdict(int))`. -/

def alFind {β : Type} : List (Str × β) → Str → Option β
  | [], _ => none
  | (k, v) :: t, key => if k == key then some v else alFind t key

def alContains {β : Type} (d : List (Str × β)) (k : Str) : Bool :=
  (alFind d k).isSome

def alAppend {β : Type} : List (Str × List β) → Str → β → List (Str × List β)
  | [], k, x => [(k, [x])]
  | (k', v) :: t, k, x =>
    if k' == k then (k', v ++ [x]) :: t else (k', v) :: alAppend t k x

abbrev Counts := List (Str × Nat)
abbrev MW := List (Str × Counts)

def cntGet : Counts → Str → Nat
  | [], _ => 0
  | (w, n) :: t, key => if w == key then n else cntGet t key

def cntInc : Counts → Str → Counts
  | [], key => [(key, 1)]
  | (w, n) :: t, key =>
    if w == key then (w, n + 1) :: t else (w, n) :: cntInc t key

/-- Lookup `model_words[man][word]`, with the implicit default of 0. -/
def mwGet (mw : MW) (man w : Str) : Nat :=
  match alFind mw man with
  | some m => cntGet m w
  | none => 0

/-- Update `model_words[man][word] += 1`. -/
def mwInc : MW → Str → Str → MW
  | [], man, w => [(man, cntInc [] w)]
  | (k, m) :: t, man, w =>
    if k == man then (k, cntInc m w) :: t else (k, m) :: mwInc t man w

/-!
## The catalog indexer (`load_products`)

Input records are JSON objects; a missing field raises `KeyError` on access.
`product_name` is only ever read, never required during indexing, so it is
modelled as a plain string; `manufacturer`, `family` and `model` are the
fields whose presence the code actually tests or assumes. -/

structure ProductRec where
  manufacturer : Option Str
  family : Option Str
  model : Option Str
  product_name : Str
deriving DecidableEq

/-- A product dict after the first pass of `load_products` (family-merged
model, no regex yet). -/
structure PData where
  family : Option Str
  model : Str
  product_name : Str
deriving DecidableEq

/-- A product dict as stored in the returned index: canonicalized `model`
plus the compiled `regex` (other fields are retained by the code but never
read afterwards). -/
structure IProduct where
  model : Str
  product_name : Str
  regex : Pattern
deriving DecidableEq

abbrev DD0 := List (Str × List PData)
abbrev DD := List (Str × List IProduct)

-- cached instances, to keep instance search small on the nested list types
instance : DecidableEq Counts := inferInstance
instance : DecidableEq MW := inferInstance
instance : DecidableEq DD0 := inferInstance
instance : DecidableEq DD := inferInstance
instance : DecidableEq (DD0 × MW) := inferInstance
instance : DecidableEq (DD × Str) := inferInstance

/-- Lookup `products_by_man[man]` on the `defaultdict(list)`: a missing key inserts
an empty list. -/
def ddGetD (d : DD) (k : Str) : DD × List IProduct :=
  match alFind d k with
  | some v => (d, v)
  | none => (d ++ [(k, [])], [])

/-- Python `''.join` / `sep.join` for a single-character separator is not
needed; this is `s.split(sep)` keeping empty parts (`''.split(sep) = ['']`). -/
def pySplitOn (sep : Char) : Str → List Str
  | [] => [[]]
  | c :: t =>
    if c == sep then [] :: pySplitOn sep t
    else
      match pySplitOn sep t with
      | [] => [[c]]
      | w :: ws => (c :: w) :: ws

/-- Lines 211–216 of solver.py: if the model is literally just a number and a
family is present, prepend the family name. -/
def merged_model (model : Str) (family : Option Str) : Str :=
  if pyIsDigit model then
    match family with
    | some f => f ++ ' ' :: model
    | none => model
  else model

/-- Lines 220–224 / 239–243 of solver.py: treat hyphens as spaces only if
there are no spaces. -/
def tokenize (model : Str) : List Str :=
  if model.contains ' ' then pySplitOn ' ' model else pySplitOn '-' model

/-- First pass of `load_products` (lines 205–229): extract fields (raising
`KeyError` on a missing `manufacturer` or `model`), merge a purely numeric
model with the family, count model words per manufacturer, and append the
product to its manufacturer bucket. -/
def phase1 : List ProductRec → DD0 × MW → Except PyErr (DD0 × MW)
  | [], acc => .ok acc
  | r :: rest, (d0, mw) =>
    match r.manufacturer with
    | none => .error .keyError
    | some mstr =>
      let man := get_manufacturer mstr
      match r.model with
      | none => .error .keyError
      | some model0 =>
        let model := merged_model model0 r.family
        let wl := tokenize model
        let mw' := wl.foldl (fun m w => mwInc m man w) mw
        phase1 rest (alAppend d0 man ⟨r.family, model, r.product_name⟩, mw')

/-- Lines 237–260 of solver.py: the per-product model canonicalization of the
second pass.  With more than one token, if some token is unique
manufacturer-wide, not a number and longer than one character, the model is
replaced by the concatenation of its tokens of frequency below 5. -/
def canonicalize (mw : MW) (man : Str) (model : Str) : Str :=
  let wl := tokenize model
  if 1 < wl.length then
    let has_unique := wl.any (fun w =>
      mwGet mw man w == 1 && !(pyIsDigit w) && decide (1 < w.length))
    if has_unique then (wl.filter (fun w => decide (mwGet mw man w < 5))).flatten
    else model
  else model

/-- Second-pass treatment of one product (lines 237–264): canonicalize the
model and compile its pattern. -/
def proc2 (mw : MW) (man : Str) (p : PData) : Except PyErr IProduct :=
  match generate_regex (canonicalize mw man p.model) with
  | .ok pat => .ok ⟨canonicalize mw man p.model, p.product_name, pat⟩
  | .error e => .error e

/-- Sequential mapping in the `Except` monad: the first raised exception
aborts the iteration, as a Python `for` loop does. -/
def mapME {α β : Type} (f : α → Except PyErr β) : List α → Except PyErr (List β)
  | [] => .ok []
  | a :: t =>
    match f a with
    | .error e => .error e
    | .ok b =>
      match mapME f t with
      | .error e => .error e
      | .ok bs => .ok (b :: bs)

/-- Second pass of `load_products` (lines 235–264), iterating over the
manufacturer buckets in insertion order. -/
def phase2 (mw : MW) : DD0 → Except PyErr DD
  | [] => .ok []
  | (man, ps) :: rest =>
    match mapME (proc2 mw man) ps with
    | .error e => .error e
    | .ok ips =>
      match phase2 mw rest with
      | .error e => .error e
      | .ok d => .ok ((man, ips) :: d)

/-- Function `load_products` from solver.py, with file I/O and JSON parsing factored
out: the input is the list of already-parsed product records. -/
def load_products (recs : List ProductRec) : Except PyErr DD :=
  match phase1 recs ([], []) with
  | .error e => .error e
  | .ok (d0, mw) => phase2 mw d0

-- the canonical end-to-end catalog of the spec (§8)
def canonRec : ProductRec :=
  ⟨some "Canon".data, some "PowerShot".data, some "100".data,
    "Canon_PowerShot_100".data⟩

def canonIndex : DD :=
  [("CANO".data,
    [⟨"PowerShot100".data, "Canon_PowerShot_100".data,
      ⟨false, "POWERSHOT100".data, true⟩⟩])]

/-!
## The listing matcher (`match_listing`)
-/

/-- Python `s.split()` with no argument: split on runs of whitespace,
producing no empty words. -/
def pySplitWs : Str → List Str
  | [] => []
  | [c] => if isWsChar c then [] else [[c]]
  | c :: c2 :: t =>
    if isWsChar c then pySplitWs (c2 :: t)
    else
      if isWsChar c2 then [c] :: pySplitWs t
      else
        match pySplitWs (c2 :: t) with
        | [] => [[c]]
        | w :: ws => (c :: w) :: ws

/-- Python `' '.join(words)`. -/
def joinSp : List Str → Str
  | [] => []
  | [w] => w
  | w :: ws => w ++ ' ' :: joinSp ws

/-- The `num_words = 6` default of `match_listing`: only the first six
whitespace-delimited words of the title are searched. -/
def num_words : Nat := 6

/-- Truncation `' '.join(title.split()[:num_words])`. -/
def truncTitle (title : Str) : Str := joinSp ((pySplitWs title).take num_words)

/-- The loop of lines 155–160: the reassigned `title` and the growing
`matches` list are threaded through the iterations. -/
def scanProducts : List IProduct → Str → List IProduct → Str × List IProduct
  | [], title, ms => (title, ms)
  | p :: rest, title, ms =>
    let title' := truncTitle title
    let ms' := if patFound p.regex (pyUpper title') then ms ++ [p] else ms
    scanProducts rest title' ms'

/-- Value of `len(max(matches, key=lambda x: len(x['model']))['model'])`: the greatest
canonical-model length in the list. -/
def maxModelLen (l : List IProduct) : Nat :=
  l.foldl (fun a p => max a p.model.length) 0

/-- The sentinel returned on no match: the literal string `"None"`. -/
def noneStr : Str := "None".data

/-- Lines 139–144: resolve the manufacturer key, falling back to the first
word of the title; `title.split()[0]` raises `IndexError` when the title has
no words. -/
def resolve_man (title man_field : Str) (d : DD) : Except PyErr Str :=
  let man := get_manufacturer man_field
  if alContains d man then .ok man
  else
    match pySplitWs title with
    | [] => .error .indexError
    | w :: _ => .ok (get_manufacturer w)

/-- Body of `match_listing` (lines 138–184) after field extraction.  Returns
the possibly-updated index (the `defaultdict` could in principle be mutated
by a lookup) together with the resulting product name or sentinel. -/
def match_listing_body (title man_field : Str) (d : DD) :
    Except PyErr (DD × Str) :=
  match resolve_man title man_field d with
  | .error e => .error e
  | .ok man =>
    if alContains d man then
      let d1 := (ddGetD d man).1
      let ms := (scanProducts (ddGetD d man).2 title []).2
      let ms2 :=
        if 1 < ms.length then
          ms.filter (fun p => p.model.length == maxModelLen ms)
        else ms
      match ms2 with
      | [m0] => .ok (d1, m0.product_name)
      | _ => .ok (d1, noneStr)
    else
      .ok (d, noneStr)

/-- A listing record; `title` and `manufacturer` accesses raise `KeyError`
when the field is missing. -/
structure ListingRec where
  title : Option Str
  manufacturer : Option Str
deriving DecidableEq

/-- Function `match_listing` from solver.py. -/
def match_listing (l : ListingRec) (d : DD) : Except PyErr (DD × Str) :=
  match l.title with
  | none => .error .keyError
  | some t =>
    match l.manufacturer with
    | none => .error .keyError
    | some m => match_listing_body t m d

/-- The loop of `match_all` (lines 286–291): match each listing in turn,
grouping the matched ones by product name. -/
def match_all_go : DD → List ListingRec → List (Str × List ListingRec) →
    Except PyErr (List (Str × List ListingRec))
  | _, [], res => .ok res
  | d, l :: rest, res =>
    match match_listing l d with
    | .error e => .error e
    | .ok (d', name) =>
      match_all_go d' rest
        (if name == noneStr then res else alAppend res name l)

/-- Function `match_all` from solver.py, with file I/O factored out: load the product
index, then match every listing against it. -/
def match_all (prods : List ProductRec) (listings : List ListingRec) :
    Except PyErr (List (Str × List ListingRec)) :=
  match load_products prods with
  | .error e => .error e
  | .ok d => match_all_go d listings []

def canonListing : ListingRec :=
  ⟨some "Canon PowerShot 100 Digital Camera".data, some "Canon".data⟩

-- the numeric-suffix guard (§8 of the spec): "Canon PowerShot 1000s" must
-- not match the PowerShot 100

-- no manufacturer key: the sentinel is a normal return value

-- blank title and unknown manufacturer: IndexError from title.split()[0]

-- shared prefix below the frequency threshold of 5 is kept: with only two
-- DMC- products the prefix has frequency 2 and survives the shortening

/-!
## Claim-side definitions

These do not come from solver.py; they state, in executable form, the
vocabulary of the specification's claims. -/

/-- Lowercase ASCII letters, by code point. -/
def isLowerChar (c : Char) : Bool := decide (97 ≤ c.toNat ∧ c.toNat ≤ 122)

/-- Uppercase ASCII letters and digits, the alphabet of model targets in the
specification's pattern-generation property. -/
def upperAlnumChars : List Char :=
  ['0','1','2','3','4','5','6','7','8','9',
   'A','B','C','D','E','F','G','H','I','J','K','L','M',
   'N','O','P','Q','R','S','T','U','V','W','X','Y','Z']

def isUpperAlnum (c : Char) : Bool := decide (c ∈ upperAlnumChars)

/-- Relation `isGapIns T S` holds when `S` is obtained from `T` by inserting a single
hyphen or a single space between some subset of the adjacent character pairs
of `T` (the insertion family in the specification's pattern property). -/
def isGapIns : Str → Str → Bool
  | [], s => s == ([] : Str)
  | [c], s => s == [c]
  | c :: c2 :: rest, s =>
    match s with
    | [] => false
    | x :: s1 =>
      x == c &&
        (isGapIns (c2 :: rest) s1 ||
          match s1 with
          | [] => false
          | y :: s2 => (y == '-' || y == ' ') && isGapIns (c2 :: rest) s2)

/-- The matching decision exactly as claim C1 (spec §4.4 steps 4–7) words
it: among the candidate products whose pattern matches the uppercased text
made of the first `num_words` whitespace-delimited words of the title, keep
only the products of maximal canonical-model length, and return the product
name if exactly one product remains, the sentinel otherwise. -/
def spec_decision (ps : List IProduct) (title : Str) : Str :=
  let text := pyUpper (truncTitle title)
  let ms := ps.filter (fun p => patFound p.regex text)
  let ms2 := ms.filter (fun p => p.model.length == maxModelLen ms)
  match ms2 with
  | [m] => m.product_name
  | _ => noneStr

-- fixtures for the concrete instantiations of the claims
def pABC : IProduct := ⟨"ABC".data, "Acme_ABC".data, ⟨false, "ABC".data, false⟩⟩

def pABC1 : IProduct :=
  ⟨"ABC1".data, "Acme_ABC1".data, ⟨false, "ABC1".data, true⟩⟩

def acmeIndex : DD := [("ACME".data, [pABC, pABC1])]

def acmeListing : ListingRec :=
  ⟨some "Acme ABC1 gadget case".data, some "Acme".data⟩

/-!
## Lemmas and claim theorems
-/

/-!
### Sanity checks by evaluation

Concrete behaviors of the embedded functions, matching hand-evaluated runs
of the Python code (including the docstring examples of `generate_regex`:
A100 matches A-100, B52 matches B 52, C100 does not match C1000, 150D does
not match 2150D).
-/

example : get_manufacturer "Canon".data = "CANO".data := by decide

example : get_manufacturer "".data = "unkn".data := by decide

example : get_manufacturer "Hewlett-Packard".data = "HEWL".data := by decide

example : get_manufacturer ".".data = "".data := by decide

example : (generate_regex "A100".data).map (fun p => patFound p "A-100".data)
    = .ok true := by decide

example : (generate_regex "B52".data).map (fun p => patFound p "B 52".data)
    = .ok true := by decide

example : (generate_regex "C100".data).map (fun p => patFound p "C1000".data)
    = .ok false := by decide

example : (generate_regex "150D".data).map (fun p => patFound p "2150D".data)
    = .ok false := by decide

example : (generate_regex "C100".data).map (fun p => patFound p "C100".data)
    = .ok true := by decide

example : (generate_regex "C100".data).map (fun p => patFound p "XC100 Y".data)
    = .ok true := by decide

example : (generate_regex "150D".data).map (fun p => patFound p "A 150D".data)
    = .ok true := by decide

example : generate_regex "".data = .error .indexError := by decide

example : generate_regex " -".data = .error .indexError := by decide

example : pySplitOn '-' "".data = [[]] := by decide

example : pySplitOn '-' "a--b".data = ["a".data, "".data, "b".data] := by decide

example : load_products [canonRec] = .ok canonIndex := by decide

example : load_products [⟨some "Acme".data, none, some "".data, "Acme_X".data⟩]
    = .error .indexError := by decide

example : load_products [⟨some "Acme".data, none, none, "Acme_X".data⟩]
    = .error .keyError := by decide

example : pySplitWs "  a b\t cd ".data = ["a".data, "b".data, "cd".data] := by
  decide

example : pySplitWs "   ".data = [] := by decide

example : match_listing canonListing canonIndex
    = .ok (canonIndex, "Canon_PowerShot_100".data) := by decide

example : match_listing
    ⟨some "Canon PowerShot 1000s Kit".data, some "Canon".data⟩ canonIndex
    = .ok (canonIndex, noneStr) := by decide

example : match_listing ⟨some "Zorp thing".data, some "Blah".data⟩ []
    = .ok ([], noneStr) := by decide

example : match_listing ⟨some "  ".data, some "Blah".data⟩ []
    = .error .indexError := by decide

example : load_products
    [⟨some "Panasonic".data, none, some "DMC-FZ8".data, "P_FZ8".data⟩,
     ⟨some "Panasonic".data, none, some "DMC-FZ18".data, "P_FZ18".data⟩]
    = .ok [("PANA".data,
        [⟨"DMCFZ8".data, "P_FZ8".data, ⟨false, "DMCFZ8".data, true⟩⟩,
         ⟨"DMCFZ18".data, "P_FZ18".data, ⟨false, "DMCFZ18".data, true⟩⟩])] := by
  decide

example : isGapIns "C100".data "C-100".data = true := by decide

example : isGapIns "C100".data "C 1-0 0".data = true := by decide

example : isGapIns "C100".data "C--100".data = false := by decide

theorem char_toNat_ofNat (n : Nat) (h : n < 55296) : (Char.ofNat n).toNat = n := by
  have hv : n.isValidChar := Or.inl h
  rw [Char.ofNat, dif_pos hv]
  simp [Char.ofNatAux, Char.toNat, UInt32.toNat]

theorem toUpper_toNat (c : Char) :
    (Char.toUpper c).toNat =
      if 97 ≤ c.toNat ∧ c.toNat ≤ 122 then c.toNat - 32 else c.toNat := by
  rw [Char.toUpper]
  by_cases h : 97 ≤ c.toNat ∧ c.toNat ≤ 122
  · rw [if_pos h, if_pos h, char_toNat_ofNat _ (by omega)]
  · rw [if_neg h, if_neg h]

theorem isLowerChar_toUpper (c : Char) : isLowerChar (Char.toUpper c) = false := by
  have h := toUpper_toNat c
  by_cases hc : 97 ≤ c.toNat ∧ c.toNat ≤ 122 <;>
    simp only [hc, if_true, if_false, if_pos, if_neg, not_false_iff] at h <;>
    simp [isLowerChar, h] <;> omega

/-- Claim C4, counterexample: on the empty manufacturer string the code
falls back to the lowercase literal `'unknown'` and truncates it, returning
`"unkn"` — not the four characters of `"UNKNOWN"`, and not an uppercase
string. -/
theorem C4_counterexample :
    get_manufacturer [] = "unkn".data ∧
    get_manufacturer [] ≠ "UNKN".data ∧
    (get_manufacturer []).any isLowerChar = true := by
  refine ⟨by decide, by decide, by decide⟩

/-- Claim C4 (amended): `get_manufacturer` is a pure function (hence
deterministic) returning at most 4 characters; on the *empty* string it
returns the lowercase `"unkn"` (the literal `'unknown'` truncated to 4
characters), not `"UNKNOWN"` truncated; on a non-empty string it returns the
first at-most-4 characters of the input after uppercasing, replacing hyphens
with spaces and removing periods, and this result contains no lowercase
ASCII letter. -/
theorem C4_get_manufacturer (m : Str) :
    (get_manufacturer m).length ≤ 4 ∧
    (m = [] → get_manufacturer m = "unkn".data) ∧
    (m ≠ [] →
      get_manufacturer m =
        (pyRemoveChar '.' (pyReplaceChar '-' ' ' (pyUpper m))).take 4 ∧
      ∀ c ∈ get_manufacturer m, isLowerChar c = false) := by
  by_cases hm : m = []
  · subst hm
    exact ⟨by decide, fun _ => by decide, fun h => absurd rfl h⟩
  · have hml : ¬ m.length = 0 := by
      simpa [List.length_eq_zero] using hm
    have hget : get_manufacturer m =
        (pyRemoveChar '.' (pyReplaceChar '-' ' ' (pyUpper m))).take 4 := by
      unfold get_manufacturer
      rw [if_neg hml]
      generalize pyRemoveChar '.' (pyReplaceChar '-' ' ' (pyUpper m)) = l
      conv_rhs => rw [← List.take_length (l := l)]
      rw [List.take_take]
    refine ⟨?_, fun h => absurd h hm, fun _ => ⟨hget, ?_⟩⟩
    · rw [hget]
      simp only [List.length_take]
      exact Nat.min_le_left _ _
    · intro c hc
      rw [hget] at hc
      have hc' := List.mem_of_mem_take hc
      have hc2 := List.mem_of_mem_filter hc'
      obtain ⟨a, ha, hac⟩ := List.mem_map.mp hc2
      obtain ⟨b, _, hba⟩ := List.mem_map.mp ha
      subst hba
      subst hac
      by_cases hb : Char.toUpper b == '-'
      · simp only [hb, if_true, if_pos]
        decide
      · simp only [hb, if_false, Bool.false_eq_true, if_neg]
        exact isLowerChar_toUpper b

/-- Witness for C4 at the non-empty input `"Hewlett-Packard"`. -/
theorem C4_witness :
    get_manufacturer "Hewlett-Packard".data =
      (pyRemoveChar '.' (pyReplaceChar '-' ' '
        (pyUpper "Hewlett-Packard".data))).take 4 :=
  ((C4_get_manufacturer "Hewlett-Packard".data).2.2 (by decide)).1

/-- Claim C3: for a model whose token list (split on spaces if a space is
present, else on hyphens) has more than one token, the canonicalization
replaces the model by the separator-free concatenation of exactly the tokens
of manufacturer-wide frequency below 5 if and only if some token has
frequency exactly 1, is not purely numeric and is longer than one character;
otherwise — and always for a single-token model — the model is unchanged. -/
theorem C3_canonicalize (mw : MW) (man model : Str) :
    (1 < (tokenize model).length →
      canonicalize mw man model =
        if ∃ w ∈ tokenize model,
            mwGet mw man w = 1 ∧ pyIsDigit w = false ∧ 1 < w.length then
          ((tokenize model).filter
            (fun w => decide (mwGet mw man w < 5))).flatten
        else model) ∧
    ((tokenize model).length ≤ 1 → canonicalize mw man model = model) := by
  constructor
  · intro hlen
    unfold canonicalize
    rw [if_pos hlen]
    by_cases he : ∃ w ∈ tokenize model,
        mwGet mw man w = 1 ∧ pyIsDigit w = false ∧ 1 < w.length
    · rw [if_pos he]
      have hany : (tokenize model).any (fun w =>
          mwGet mw man w == 1 && !(pyIsDigit w) && decide (1 < w.length))
            = true := by
        rw [List.any_eq_true]
        obtain ⟨w, hw, h1, h2, h3⟩ := he
        exact ⟨w, hw, by simp [h1, h2, h3]⟩
      rw [hany]
      simp
    · rw [if_neg he]
      have hany : (tokenize model).any (fun w =>
          mwGet mw man w == 1 && !(pyIsDigit w) && decide (1 < w.length))
            = false := by
        rw [Bool.eq_false_iff]
        intro hc
        obtain ⟨w, hw, hp⟩ := List.any_eq_true.mp hc
        simp only [Bool.and_eq_true, beq_iff_eq, Bool.not_eq_true',
          decide_eq_true_eq] at hp
        exact he ⟨w, hw, hp.1.1, hp.1.2, hp.2⟩
      rw [hany]
      simp
  · intro hlen
    unfold canonicalize
    rw [if_neg (by omega)]

/-- Witness for C3: the Panasonic-style catalog of the spec's example, where
the boilerplate prefix `DMC` has frequency 6 and is dropped in favour of the
unique token `X100`. -/
theorem C3_witness :
    1 < (tokenize "DMC X100".data).length ∧
    canonicalize [("PANA".data, [("DMC".data, 6), ("X100".data, 1)])]
      "PANA".data "DMC X100".data = "X100".data := by
  refine ⟨by decide, ?_⟩
  rw [(C3_canonicalize [("PANA".data, [("DMC".data, 6), ("X100".data, 1)])]
    "PANA".data "DMC X100".data).1 (by decide)]
  decide

/-- Claim C5: a product whose model is purely numeric and which has a family
is stored by the first indexing pass with `model = family + " " + model`
(before any tokenization), and on the spec's end-to-end example the Canon
PowerShot 100 catalog entry gets canonical model `"PowerShot100"` and the
example listing resolves to `"Canon_PowerShot_100"`. -/
theorem C5_family_merge :
    (∀ (r : ProductRec) (rest : List ProductRec) (d0 : DD0) (mw : MW)
        (mstr model f : Str),
      r.manufacturer = some mstr → r.model = some model →
      r.family = some f → pyIsDigit model = true →
      phase1 (r :: rest) (d0, mw) =
        phase1 rest
          (alAppend d0 (get_manufacturer mstr)
            ⟨some f, f ++ ' ' :: model, r.product_name⟩,
           (tokenize (f ++ ' ' :: model)).foldl
             (fun mm w => mwInc mm (get_manufacturer mstr) w) mw)) ∧
    load_products [canonRec] = .ok canonIndex ∧
    alFind canonIndex "CANO".data =
      some [⟨"PowerShot100".data, "Canon_PowerShot_100".data,
        ⟨false, "POWERSHOT100".data, true⟩⟩] ∧
    match_listing canonListing canonIndex
      = .ok (canonIndex, "Canon_PowerShot_100".data) := by
  refine ⟨?_, by decide, by decide, by decide⟩
  intro r rest d0 mw mstr model f h1 h2 h3 h4
  have hmerge : merged_model model (some f) = f ++ ' ' :: model := by
    simp [merged_model, h4]
  simp only [phase1, h1, h2, h3, hmerge]

/-- Witness for C5, instantiating the family-merge equation on the Canon
record. -/
theorem C5_witness :
    phase1 [canonRec] ([], []) =
      .ok ([("CANO".data,
          [⟨some "PowerShot".data, "PowerShot 100".data,
            "Canon_PowerShot_100".data⟩])],
        [("CANO".data, [("PowerShot".data, 1), ("100".data, 1)])]) := by
  rw [C5_family_merge.1 canonRec [] [] [] "Canon".data "100".data
    "PowerShot".data rfl rfl rfl (by decide)]
  decide

theorem mapME_mem {α β : Type} (f : α → Except PyErr β) :
    ∀ (l : List α) (out : List β), mapME f l = .ok out →
      ∀ b ∈ out, ∃ a ∈ l, f a = .ok b := by
  intro l
  induction l with
  | nil =>
    intro out h b hb
    simp only [mapME] at h
    cases h
    simp at hb
  | cons a t ih =>
    intro out h b hb
    rw [mapME] at h
    cases hfa : f a with
    | error e => rw [hfa] at h; cases h
    | ok b0 =>
      rw [hfa] at h
      cases hmt : mapME f t with
      | error e => rw [hmt] at h; cases h
      | ok bs =>
        rw [hmt] at h
        cases h
        rcases List.mem_cons.mp hb with rfl | hb'
        · exact ⟨a, List.mem_cons_self a t, hfa⟩
        · obtain ⟨a', ha', hfa'⟩ := ih bs hmt b hb'
          exact ⟨a', List.mem_cons_of_mem a ha', hfa'⟩

theorem generate_regex_ok_core {t : Str} {p : Pattern}
    (h : generate_regex t = .ok p) : normTarget t ≠ [] ∧ p.core = normTarget t := by
  unfold generate_regex at h
  cases hnt : normTarget t with
  | nil =>
    rw [hnt] at h
    cases h
  | cons c cs =>
    rw [hnt] at h
    cases hL : (c :: cs).getLast? with
    | none => simp at hL
    | some lc =>
      rw [hL] at h
      simp only [List.head?] at h
      cases h
      exact ⟨by simp, rfl⟩

theorem phase2_mem (mw : MW) :
    ∀ (d0 : DD0) (d : DD), phase2 mw d0 = .ok d →
      ∀ e ∈ d, ∀ p ∈ e.2, ∃ man pd,
        proc2 mw man pd = .ok p := by
  intro d0
  induction d0 with
  | nil =>
    intro d h e he
    rw [phase2] at h
    cases h
    simp at he
  | cons entry rest ih =>
    intro d h e he p hp
    obtain ⟨man, ps⟩ := entry
    rw [phase2] at h
    cases hmap : mapME (proc2 mw man) ps with
    | error er => rw [hmap] at h; cases h
    | ok ips =>
      rw [hmap] at h
      cases hrest : phase2 mw rest with
      | error er => rw [hrest] at h; cases h
      | ok drest =>
        rw [hrest] at h
        cases h
        rcases List.mem_cons.mp he with rfl | he'
        · obtain ⟨pd, _, hpd⟩ := mapME_mem _ ps ips hmap p hp
          exact ⟨man, pd, hpd⟩
        · exact ih drest hrest e he' p hp

/-- Claim C7 (amended): every product stored in a successfully returned
index has a non-empty canonical model (its regex normalization is non-empty
too) and a pattern successfully compiled from exactly that model; however, a
product whose model is empty after canonicalization is *not* skipped with a
diagnostic: `generate_regex` raises `IndexError` on it, aborting the whole
`load_products` call rather than failing for that product alone. -/
theorem C7_index_invariant (recs : List ProductRec) (d : DD)
    (h : load_products recs = .ok d) :
    ∀ e ∈ d, ∀ p ∈ e.2,
      p.model ≠ [] ∧ normTarget p.model ≠ [] ∧
      generate_regex p.model = .ok p.regex := by
  intro e he p hp
  unfold load_products at h
  cases h1 : phase1 recs ([], []) with
  | error er => rw [h1] at h; cases h
  | ok acc =>
    rw [h1] at h
    obtain ⟨d0, mw⟩ := acc
    have h2 : phase2 mw d0 = .ok d := h
    obtain ⟨man, pd, hpd⟩ := phase2_mem mw d0 d h2 e he p hp
    unfold proc2 at hpd
    cases hgen : generate_regex (canonicalize mw man pd.model) with
    | error er => rw [hgen] at hpd; cases hpd
    | ok pat =>
      rw [hgen] at hpd
      cases hpd
      have hcore := generate_regex_ok_core hgen
      refine ⟨?_, hcore.1, hgen⟩
      intro hnil
      simp only at hnil
      apply hcore.1
      rw [hnil]
      rfl

/-- Counterexample for C7: a catalog whose first product has an empty model
string makes `load_products` raise `IndexError`; in particular the second,
well-formed product is not indexed either — nothing is "skipped with a
diagnostic". -/
theorem C7_counterexample :
    load_products
      [⟨some "Acme".data, none, some "".data, "Acme_X".data⟩, canonRec]
      = .error .indexError := by decide

/-- Witness for C7 on the canonical one-product catalog. -/
theorem C7_witness :
    (⟨"PowerShot100".data, "Canon_PowerShot_100".data,
        ⟨false, "POWERSHOT100".data, true⟩⟩ : IProduct).model ≠ [] ∧
    generate_regex ("PowerShot100".data)
      = .ok ⟨false, "POWERSHOT100".data, true⟩ := by
  have h := C7_index_invariant [canonRec] canonIndex (by decide)
    ("CANO".data,
      [⟨"PowerShot100".data, "Canon_PowerShot_100".data,
        ⟨false, "POWERSHOT100".data, true⟩⟩])
    (by decide)
    ⟨"PowerShot100".data, "Canon_PowerShot_100".data,
        ⟨false, "POWERSHOT100".data, true⟩⟩
    (by decide)
  exact ⟨h.1, h.2.2⟩

/-- Counterexample for C8: in a two-listing batch whose first listing lacks
its `title` field, `match_all` raises `KeyError`; the second, well-formed
listing (which would match) is never processed, so the batch is aborted
rather than continued past the rejected record. -/
theorem C8_counterexample :
    match_all [canonRec] [⟨none, some "Canon".data⟩, canonListing]
      = .error .keyError ∧
    match_all [canonRec] [canonListing]
      = .ok [("Canon_PowerShot_100".data, [canonListing])] := by
  exact ⟨by decide, by decide⟩

/-- Claim C6: when the manufacturer-field key is absent from the index,
`match_listing` re-derives the key from the first whitespace-delimited token
of the title; if that key is also absent, the sentinel is returned as a
normal value. -/
theorem C6_fallback_no_match (l : ListingRec) (d : DD) (t m w : Str)
    (ws : List Str) (h1 : l.title = some t) (h2 : l.manufacturer = some m)
    (h3 : alContains d (get_manufacturer m) = false)
    (h4 : pySplitWs t = w :: ws)
    (h5 : alContains d (get_manufacturer w) = false) :
    resolve_man t m d = .ok (get_manufacturer w) ∧
    match_listing l d = .ok (d, noneStr) := by
  have hres : resolve_man t m d = .ok (get_manufacturer w) := by
    unfold resolve_man
    rw [if_neg (by simp [h3]), h4]
  refine ⟨hres, ?_⟩
  have hbody : match_listing l d = match_listing_body t m d := by
    unfold match_listing
    rw [h1, h2]
  rw [hbody]
  unfold match_listing_body
  simp only [hres, h5]
  simp

/-- Witness for C6: an empty index has no key at all, so both key lookups
fail and the listing resolves to the sentinel. -/
theorem C6_witness :
    resolve_man "Zorp thing".data "Blah".data []
      = .ok (get_manufacturer "Zorp".data) ∧
    match_listing ⟨some "Zorp thing".data, some "Blah".data⟩ []
      = .ok ([], noneStr) :=
  C6_fallback_no_match ⟨some "Zorp thing".data, some "Blah".data⟩ []
    "Zorp thing".data "Blah".data "Zorp".data ["thing".data]
    rfl rfl rfl (by decide) rfl

/-- Claim C9: `match_listing` never mutates the index: whenever it returns a
value, the index component of the result is the input index unchanged — in
particular a lookup of an absent manufacturer key never inserts an empty
entry, although the index is a default-valued mapping. -/
theorem C9_read_only (l : ListingRec) (d : DD) (r : DD × Str)
    (h : match_listing l d = .ok r) : r.1 = d := by
  unfold match_listing at h
  cases h1 : l.title with
  | none => rw [h1] at h; cases h
  | some t =>
    rw [h1] at h
    cases h2 : l.manufacturer with
    | none => rw [h2] at h; cases h
    | some m =>
      rw [h2] at h
      have h' : match_listing_body t m d = .ok r := h
      clear h
      unfold match_listing_body at h'
      cases h3 : resolve_man t m d with
      | error e => rw [h3] at h'; cases h'
      | ok key =>
        rw [h3] at h'
        simp only at h'
        by_cases h4 : alContains d key
        · rw [if_pos h4] at h'
          obtain ⟨v, hv⟩ := Option.isSome_iff_exists.mp h4
          have hdd : ddGetD d key = (d, v) := by
            unfold ddGetD
            rw [hv]
          rw [hdd] at h'
          simp only at h'
          split at h' <;> (cases h'; rfl)
        · rw [if_neg h4] at h'
          cases h'
          rfl

/-- Witness for C9 on the canonical index and listing. -/
theorem C9_witness : (canonIndex, "Canon_PowerShot_100".data).1 = canonIndex :=
  C9_read_only canonListing canonIndex
    (canonIndex, "Canon_PowerShot_100".data) (by decide)

theorem pySplitWs_ws_cons (a : Char) (t : Str) (ha : isWsChar a = true) :
    pySplitWs (a :: t) = pySplitWs t := by
  cases t with
  | nil => simp [pySplitWs, ha]
  | cons b u => simp [pySplitWs, ha]

theorem pySplitWs_cons_eq (s : Str) : ∀ c, isWsChar c = false →
    pySplitWs (c :: s) =
      (c :: s.takeWhile (fun x => !isWsChar x)) ::
        pySplitWs (s.dropWhile (fun x => !isWsChar x)) := by
  induction s with
  | nil => intro c hc; simp [pySplitWs, hc]
  | cons c2 t ih =>
    intro c hc
    by_cases h2 : isWsChar c2
    · simp [pySplitWs, hc, h2, List.takeWhile_cons, List.dropWhile_cons,
        pySplitWs_ws_cons]
    · rw [Bool.not_eq_true] at h2
      have hstep : pySplitWs (c :: c2 :: t) =
          match pySplitWs (c2 :: t) with
          | [] => [[c]]
          | w :: ws => (c :: w) :: ws := by
        simp [pySplitWs, hc, h2]
      rw [hstep, ih c2 h2]
      simp [List.takeWhile_cons, List.dropWhile_cons, h2]

theorem pySplitWs_nil_iff_aux : ∀ (n : Nat) (t : Str), t.length ≤ n →
    (pySplitWs t = [] ↔ ∀ c ∈ t, isWsChar c = true) := by
  intro n
  induction n with
  | zero =>
    intro t ht
    have ht0 : t = [] := List.eq_nil_of_length_eq_zero (Nat.le_zero.mp ht)
    subst ht0
    simp [pySplitWs]
  | succ n ih =>
    intro t ht
    cases t with
    | nil => simp [pySplitWs]
    | cons c s =>
      have hs : s.length ≤ n := by
        simp only [List.length_cons] at ht
        omega
      by_cases hc : isWsChar c
      · rw [pySplitWs_ws_cons c s hc, ih s hs]
        constructor
        · intro hall c' hc'
          rcases List.mem_cons.mp hc' with rfl | h
          · exact hc
          · exact hall c' h
        · intro hall c' hc'
          exact hall c' (List.mem_cons_of_mem c hc')
      · rw [Bool.not_eq_true] at hc
        rw [pySplitWs_cons_eq s c hc]
        apply iff_of_false
        · simp
        · intro hall
          rw [hall c (List.mem_cons_self c s)] at hc
          cases hc

theorem pySplitWs_nil_iff (t : Str) :
    pySplitWs t = [] ↔ ∀ c ∈ t, isWsChar c = true :=
  pySplitWs_nil_iff_aux t.length t le_rfl

theorem match_listing_body_no_error (t m : Str) (d : DD) (e : PyErr)
    (h : match_listing_body t m d = .error e) :
    resolve_man t m d = .error e := by
  unfold match_listing_body at h
  cases h3 : resolve_man t m d with
  | error e' =>
    rw [h3] at h
    simp only at h
    cases h
    rfl
  | ok key =>
    rw [h3] at h
    simp only at h
    by_cases h4 : alContains d key
    · rw [if_pos h4] at h
      split at h <;> cases h
    · rw [if_neg h4] at h
      cases h

/-- Totality of `match_listing` on a listing with both fields present and a
non-blank title: the only possible exception, the `IndexError` from
`title.split()[0]`, needs a blank title to be reached. -/
theorem match_listing_ok_of_title (l : ListingRec) (d : DD) (t m : Str)
    (h1 : l.title = some t) (h2 : l.manufacturer = some m)
    (hnb : ∃ c, c ∈ t ∧ isWsChar c = false) :
    ∃ r, match_listing l d = .ok r := by
  obtain ⟨c, hc, hcw⟩ := hnb
  have hbody : match_listing l d = match_listing_body t m d := by
    unfold match_listing
    rw [h1, h2]
  rw [hbody]
  have hsplit : pySplitWs t ≠ [] := by
    rw [Ne, pySplitWs_nil_iff]
    intro hall
    rw [hall c hc] at hcw
    cases hcw
  have hres : ∃ key, resolve_man t m d = .ok key := by
    unfold resolve_man
    by_cases hc1 : alContains d (get_manufacturer m)
    · rw [if_pos hc1]
      exact ⟨_, rfl⟩
    · rw [if_neg hc1]
      cases hsp : pySplitWs t with
      | nil => exact absurd hsp hsplit
      | cons w ws => exact ⟨_, rfl⟩
  obtain ⟨key, hkey⟩ := hres
  cases hb : match_listing_body t m d with
  | error e =>
    have hcontra := match_listing_body_no_error t m d e hb
    rw [hkey] at hcontra
    cases hcontra
  | ok r => exact ⟨r, rfl⟩

/-- Claim C10: with both fields present, `match_listing` returns a value
(no exception) whenever the title has at least one non-whitespace character;
and when the manufacturer-field key is absent from the index and the title
is blank, `title.split()[0]` raises `IndexError` and no result is
produced. -/
theorem C10_totality (l : ListingRec) (d : DD) (t m : Str)
    (h1 : l.title = some t) (h2 : l.manufacturer = some m) :
    ((∃ c, c ∈ t ∧ isWsChar c = false) → ∃ r, match_listing l d = .ok r) ∧
    (alContains d (get_manufacturer m) = false →
      (∀ c ∈ t, isWsChar c = true) →
      match_listing l d = .error .indexError) := by
  have hbody : match_listing l d = match_listing_body t m d := by
    unfold match_listing
    rw [h1, h2]
  constructor
  · exact match_listing_ok_of_title l d t m h1 h2
  · intro hcon hall
    rw [hbody]
    have hsp : pySplitWs t = [] := (pySplitWs_nil_iff t).mpr hall
    have hres : resolve_man t m d = .error .indexError := by
      unfold resolve_man
      rw [if_neg (by simp [hcon]), hsp]
    unfold match_listing_body
    rw [hres]

/-- Witness for C10: both branches at concrete listings over the empty
index. -/
theorem C10_witness :
    (∃ r, match_listing ⟨some "Acme thing".data, some "Acme".data⟩ []
        = .ok r) ∧
    match_listing ⟨some "  ".data, some "Acme".data⟩ []
      = .error .indexError := by
  constructor
  · exact (C10_totality ⟨some "Acme thing".data, some "Acme".data⟩ []
      "Acme thing".data "Acme".data rfl rfl).1 ⟨'A', by decide, by decide⟩
  · exact (C10_totality ⟨some "  ".data, some "Acme".data⟩ []
      "  ".data "Acme".data rfl rfl).2 rfl (by decide)

theorem pySplitWs_tokens_aux : ∀ (n : Nat) (t : Str), t.length ≤ n →
    ∀ w ∈ pySplitWs t, w ≠ [] ∧ ∀ c ∈ w, isWsChar c = false := by
  intro n
  induction n with
  | zero =>
    intro t ht w hw
    have ht0 : t = [] := List.eq_nil_of_length_eq_zero (Nat.le_zero.mp ht)
    subst ht0
    simp [pySplitWs] at hw
  | succ n ih =>
    intro t ht w hw
    cases t with
    | nil => simp [pySplitWs] at hw
    | cons c s =>
      have hs : s.length ≤ n := by
        simp only [List.length_cons] at ht
        omega
      by_cases hc : isWsChar c
      · rw [pySplitWs_ws_cons c s hc] at hw
        exact ih s hs w hw
      · rw [Bool.not_eq_true] at hc
        rw [pySplitWs_cons_eq s c hc] at hw
        rcases List.mem_cons.mp hw with rfl | hw'
        · refine ⟨by simp, ?_⟩
          intro c' hc'
          rcases List.mem_cons.mp hc' with rfl | hc''
          · exact hc
          · have := List.mem_takeWhile_imp hc''
            simpa using this
        · have hlen : (s.dropWhile (fun x => !isWsChar x)).length ≤ n :=
            le_trans (List.dropWhile_suffix _).length_le hs
          exact ih _ hlen w hw'

theorem pySplitWs_tokens (t : Str) :
    ∀ w ∈ pySplitWs t, w ≠ [] ∧ ∀ c ∈ w, isWsChar c = false :=
  pySplitWs_tokens_aux t.length t le_rfl

theorem takeWhile_append_all (p : Char → Bool) (s : Str) :
    ∀ (l : Str), (∀ x ∈ l, p x = true) →
      (l ++ s).takeWhile p = l ++ s.takeWhile p ∧
      (l ++ s).dropWhile p = s.dropWhile p := by
  intro l
  induction l with
  | nil => intro _; simp
  | cons a u ih =>
    intro h
    have ha : p a = true := h a (List.mem_cons_self a u)
    have hu := ih (fun x hx => h x (List.mem_cons_of_mem a hx))
    simp only [List.cons_append, List.takeWhile_cons, List.dropWhile_cons,
      ha, if_true, hu.1, hu.2]
    exact ⟨trivial, trivial⟩

/-- Splitting a string that begins with a non-empty whitespace-free word:
the word extends to the next whitespace character. -/
theorem pySplitWs_word_append (w s : Str) (hne : w ≠ [])
    (hw : ∀ c ∈ w, isWsChar c = false) :
    pySplitWs (w ++ s) =
      (w ++ s.takeWhile (fun x => !isWsChar x)) ::
        pySplitWs (s.dropWhile (fun x => !isWsChar x)) := by
  cases w with
  | nil => exact absurd rfl hne
  | cons c u =>
    have hc : isWsChar c = false := hw c (List.mem_cons_self c u)
    have hu : ∀ x ∈ u, (fun x => !isWsChar x) x = true := by
      intro x hx
      simp [hw x (List.mem_cons_of_mem c hx)]
    have happ := takeWhile_append_all (fun x => !isWsChar x) s u hu
    rw [List.cons_append, pySplitWs_cons_eq (u ++ s) c hc, happ.1, happ.2]
    simp

/-- Splitting `' '.join(words)` with `str.split` recovers `words` when all words are
non-empty and whitespace-free. -/
theorem pySplitWs_joinSp : ∀ (ws : List Str),
    (∀ w ∈ ws, w ≠ [] ∧ ∀ c ∈ w, isWsChar c = false) →
    pySplitWs (joinSp ws) = ws := by
  intro ws
  induction ws with
  | nil => intro _; simp [joinSp, pySplitWs]
  | cons w rest ih =>
    intro h
    have hw := h w (List.mem_cons_self w rest)
    cases rest with
    | nil =>
      show pySplitWs w = [w]
      have := pySplitWs_word_append w [] hw.1 hw.2
      simpa [List.takeWhile, List.dropWhile, pySplitWs] using this
    | cons w2 rest2 =>
      have hjoin : joinSp (w :: w2 :: rest2) = w ++ ' ' :: joinSp (w2 :: rest2) := rfl
      rw [hjoin, pySplitWs_word_append w _ hw.1 hw.2]
      have htd : (' ' :: joinSp (w2 :: rest2)).takeWhile
            (fun x => !isWsChar x) = [] ∧
          (' ' :: joinSp (w2 :: rest2)).dropWhile
            (fun x => !isWsChar x) = ' ' :: joinSp (w2 :: rest2) := by
        constructor <;> simp [List.takeWhile_cons, List.dropWhile_cons, isWsChar, wsChars]
      rw [htd.1, htd.2, List.append_nil]
      rw [pySplitWs_ws_cons _ _ (by simp [isWsChar, wsChars])]
      rw [ih (fun x hx => h x (List.mem_cons_of_mem w hx))]

theorem truncTitle_idem (t : Str) : truncTitle (truncTitle t) = truncTitle t := by
  unfold truncTitle
  have hprops : ∀ w ∈ (pySplitWs t).take num_words,
      w ≠ [] ∧ ∀ c ∈ w, isWsChar c = false :=
    fun w hw => pySplitWs_tokens t w (List.mem_of_mem_take hw)
  rw [pySplitWs_joinSp _ hprops, List.take_take, min_self]

theorem scanProducts_snd (ps : List IProduct) :
    ∀ (t : Str) (acc : List IProduct),
      (scanProducts ps t acc).2 =
        acc ++ ps.filter (fun p => patFound p.regex (pyUpper (truncTitle t))) := by
  induction ps with
  | nil =>
    intro t acc
    simp [scanProducts]
  | cons p rest ih =>
    intro t acc
    have hstep : scanProducts (p :: rest) t acc =
        scanProducts rest (truncTitle t)
          (if patFound p.regex (pyUpper (truncTitle t)) then acc ++ [p]
           else acc) := rfl
    rw [hstep, ih (truncTitle t), truncTitle_idem]
    by_cases hp : patFound p.regex (pyUpper (truncTitle t))
    · simp [hp, List.filter_cons]
    · simp [hp, List.filter_cons]

theorem filter_max_small (ms : List IProduct) (h : ms.length ≤ 1) :
    ms.filter (fun p => p.model.length == maxModelLen ms) = ms := by
  cases ms with
  | nil => rfl
  | cons m rest =>
    cases rest with
    | nil => simp [maxModelLen, List.filter_cons]
    | cons b r => simp at h

/-- Claim C1: whenever the resolved manufacturer key is present in the
index, `match_listing` returns (with the index unchanged) exactly the
decision the specification describes: filter the key's candidates by
pattern-match against the uppercased first-6-words text, keep only the
candidates of maximal canonical-model length, and return the single
survivor's product name, or the sentinel when zero or several survive. -/
theorem C1_match_policy (l : ListingRec) (d : DD) (t m key : Str)
    (ps : List IProduct) (h1 : l.title = some t) (h2 : l.manufacturer = some m)
    (hres : resolve_man t m d = .ok key) (hfind : alFind d key = some ps) :
    match_listing l d = .ok (d, spec_decision ps t) := by
  have hcon : alContains d key = true := by
    unfold alContains
    rw [hfind]
    rfl
  have hdd : ddGetD d key = (d, ps) := by
    unfold ddGetD
    rw [hfind]
  have hbody : match_listing l d = match_listing_body t m d := by
    unfold match_listing
    rw [h1, h2]
  rw [hbody]
  unfold match_listing_body
  rw [hres]
  simp only
  rw [if_pos hcon, hdd]
  simp only
  rw [scanProducts_snd ps t []]
  simp only [List.nil_append]
  unfold spec_decision
  simp only
  set ms := ps.filter (fun p => patFound p.regex (pyUpper (truncTitle t)))
    with hms
  by_cases hlen : 1 < ms.length
  · rw [if_pos hlen]
    rcases hsc : ms.filter (fun p => p.model.length == maxModelLen ms)
      with _ | ⟨a, _ | ⟨b, r⟩⟩ <;> rw [hsc]
  · rw [if_neg hlen, filter_max_small ms (by omega)]
    rcases hsc : ms with _ | ⟨a, _ | ⟨b, r⟩⟩ <;> rfl

/-- Witness for C1: an index with candidates `ABC` and `ABC1`; both patterns
match the title, and the longer canonical model wins the tie-break. -/
theorem C1_witness :
    match_listing acmeListing acmeIndex
      = .ok (acmeIndex, "Acme_ABC1".data) := by
  rw [C1_match_policy acmeListing acmeIndex
    "Acme ABC1 gadget case".data "Acme".data "ACME".data [pABC, pABC1]
    rfl rfl (by decide) (by decide)]
  decide

theorem upperAlnum_facts (c : Char) (h : isUpperAlnum c = true) :
    Char.toUpper c = c ∧ (c == '-') = false ∧ isWsChar c = false ∧
      (c == '\n') = false ∧ (c == ' ') = false := by
  have hmem : c ∈ upperAlnumChars := of_decide_eq_true h
  fin_cases hmem <;> decide

theorem digit_facts (c : Char) (h : isDigitChar c = true) :
    isUpperAlnum c = true ∧ (c == '-') = false ∧ isWsChar c = false ∧
      (c == '\n') = false := by
  have hmem : c ∈ digitChars := of_decide_eq_true h
  fin_cases hmem <;> decide

theorem normTarget_id (T : Str) (h : ∀ c ∈ T, isUpperAlnum c = true) :
    normTarget T = T := by
  unfold normTarget
  have hmap : pyUpper T = T := by
    unfold pyUpper
    induction T with
    | nil => rfl
    | cons c u ih =>
      rw [List.map_cons, (upperAlnum_facts c (h c (List.mem_cons_self c u))).1,
        ih (fun x hx => h x (List.mem_cons_of_mem c hx))]
  rw [hmap]
  unfold pyRemoveChar
  rw [List.filter_eq_self.mpr, List.filter_eq_self.mpr]
  · intro a ha
    simp [(upperAlnum_facts a (h a ha)).2.1]
  · intro a ha
    have ha' := List.mem_of_mem_filter ha
    simp [(upperAlnum_facts a (h a ha')).2.2.2.2]

theorem generate_regex_alnum (T : Str) (p : Pattern) (hd le : Char)
    (h : ∀ c ∈ T, isUpperAlnum c = true) (hp : generate_regex T = .ok p)
    (hhd : T.head? = some hd) (hle : T.getLast? = some le) :
    p = ⟨isDigitChar hd, T, isDigitChar le⟩ := by
  unfold generate_regex at hp
  rw [normTarget_id T h, hle, hhd] at hp
  simp only at hp
  cases hp
  rfl

theorem isGapIns_refl : ∀ T : Str, isGapIns T T = true := by
  intro T
  induction T with
  | nil => rfl
  | cons c T' ih =>
    cases T' with
    | nil => simp [isGapIns]
    | cons c2 rest => simp [isGapIns, ih]

theorem coreMatchP_gap (k : Str → Bool) :
    ∀ (T S rem : Str), isGapIns T S = true → k rem = true →
      coreMatchP k T (S ++ rem) = true := by
  intro T
  induction T with
  | nil =>
    intro S rem hg hk
    have hS : S = [] := by simpa [isGapIns] using hg
    subst hS
    simpa [coreMatchP] using hk
  | cons c T' ih =>
    cases T' with
    | nil =>
      intro S rem hg hk
      have hS : S = [c] := by simpa [isGapIns] using hg
      subst hS
      simp [coreMatchP, hk]
    | cons c2 rest =>
      intro S rem hg hk
      cases S with
      | nil => simp [isGapIns] at hg
      | cons x s1 =>
        simp only [isGapIns, Bool.and_eq_true, Bool.or_eq_true] at hg
        obtain ⟨hxc, hrest⟩ := hg
        rw [List.cons_append]
        simp only [coreMatchP, hxc, Bool.true_and, Bool.or_eq_true]
        rcases hrest with hg1 | hg2
        · exact Or.inl (ih s1 rem hg1 hk)
        · cases s1 with
          | nil => simp at hg2
          | cons y s2 =>
            simp only [Bool.and_eq_true, Bool.or_eq_true] at hg2
            obtain ⟨hy, hgs2⟩ := hg2
            have hcm := ih s2 rem hgs2 hk
            refine Or.inr ?_
            rw [List.cons_append]
            rcases hy with hy | hy
            · rw [beq_iff_eq] at hy
              subst hy
              simp [hcm]
            · rw [beq_iff_eq] at hy
              subst hy
              simp [hcm, isWsChar, wsChars]

theorem coreMatchP_nil_false (k : Str → Bool) :
    ∀ (u : Str), u ≠ [] → coreMatchP k u [] = false := by
  intro u hu
  cases u with
  | nil => exact absurd rfl hu
  | cons a v =>
    cases v with
    | nil => rfl
    | cons b w => rfl

/-- On a text with no hyphen and no whitespace, the pattern core matches
exactly the literal target: nothing can be inserted, nothing skipped. -/
theorem coreMatchP_nosep (k : Str → Bool) :
    ∀ (T s : Str),
      (∀ c ∈ s, (c == '-') = false ∧ isWsChar c = false) →
      (coreMatchP k T s = true ↔ ∃ rem, s = T ++ rem ∧ k rem = true) := by
  intro T
  induction T with
  | nil =>
    intro s hs
    simp [coreMatchP]
  | cons c T' ih =>
    cases T' with
    | nil =>
      intro s hs
      cases s with
      | nil =>
        simp [coreMatchP]
      | cons x s1 =>
        simp only [coreMatchP, Bool.and_eq_true, beq_iff_eq,
          List.singleton_append, List.cons.injEq]
        constructor
        · rintro ⟨rfl, hk⟩
          exact ⟨s1, ⟨rfl, rfl⟩, hk⟩
        · rintro ⟨rem, ⟨h1, h2⟩, hk⟩
          subst h1
          subst h2
          exact ⟨rfl, hk⟩
    | cons c2 rest =>
      intro s hs
      cases s with
      | nil =>
        rw [show coreMatchP k (c :: c2 :: rest) [] = false from rfl]
        simp
      | cons x s1 =>
        have hs1 : ∀ c' ∈ s1, (c' == '-') = false ∧ isWsChar c' = false :=
          fun c' hc' => hs c' (List.mem_cons_of_mem x hc')
        cases s1 with
        | nil =>
          rw [show coreMatchP k (c :: c2 :: rest) [x] =
              (x == c && (coreMatchP k (c2 :: rest) [] || false)) from rfl]
          rw [coreMatchP_nil_false k (c2 :: rest) (by simp)]
          simp only [Bool.or_false, Bool.and_false, Bool.false_eq_true,
            false_iff]
          rintro ⟨rem, heq, -⟩
          have := congrArg List.length heq
          simp [List.length_append] at this
        | cons y s2 =>
          have hy := hs1 y (List.mem_cons_self y s2)
          have hsep : coreMatchP k (c :: c2 :: rest) (x :: y :: s2) =
              (x == c && coreMatchP k (c2 :: rest) (y :: s2)) := by
            simp only [coreMatchP, hy.1, hy.2, Bool.false_and,
              Bool.or_false, Bool.false_or]
          rw [hsep]
          simp only [Bool.and_eq_true, beq_iff_eq]
          rw [ih (y :: s2) hs1]
          constructor
          · rintro ⟨rfl, rem, heq, hk⟩
            exact ⟨rem, by rw [List.cons_append, heq], hk⟩
          · rintro ⟨rem, heq, hk⟩
            rw [List.cons_append] at heq
            injection heq with h1 h2
            exact ⟨h1, rem, h2, hk⟩

theorem tailOk_nil (ed : Bool) : tailOk ed [] = true := by
  cases ed <;> rfl

theorem tailOk_digit (d : Char) (hd : isDigitChar d = true) :
    tailOk true [d] = false := by
  have hfacts := digit_facts d hd
  have hne : (d == '\n') = false := hfacts.2.2.2
  rw [beq_eq_false_iff_ne] at hne
  simp [tailOk, dollarAt, hd, hne]

theorem guardScan_struct (k : Str → Bool) (core : Str) :
    ∀ (text : Str), guardScan k core text = true →
      ∃ (pre : Str) (c : Char) (rest : Str), text = pre ++ c :: rest ∧
        isDigitChar c = false ∧ coreMatchP k core rest = true := by
  intro text
  induction text with
  | nil =>
    intro h
    simp [guardScan] at h
  | cons c t ih =>
    intro h
    simp only [guardScan, Bool.or_eq_true, Bool.and_eq_true,
      Bool.not_eq_true'] at h
    rcases h with ⟨hdc, hcm⟩ | ⟨-, hg⟩
    · exact ⟨[], c, t, rfl, hdc, hcm⟩
    · obtain ⟨pre, c', rest, heq, hdc, hcm⟩ := ih hg
      exact ⟨c :: pre, c', rest, by rw [heq, List.cons_append], hdc, hcm⟩

theorem cons_eq_append_singleton {x : Char} :
    ∀ {l : List Char} {y : Char}, y :: l = l ++ [x] →
      (∀ c ∈ l, c = y) ∧ x = y := by
  intro l
  induction l with
  | nil =>
    intro y h
    injection h with h1 _
    exact ⟨by simp, h1.symm⟩
  | cons a t ih =>
    intro y h
    rw [List.cons_append] at h
    injection h with h1 h2
    subst h1
    obtain ⟨hall, hx⟩ := ih h2
    refine ⟨?_, hx⟩
    intro c hc
    rcases List.mem_cons.mp hc with rfl | hc'
    · rfl
    · exact hall c hc'

theorem head?_mem {T : Str} {hd : Char} (hhd : T.head? = some hd) : hd ∈ T := by
  cases T with
  | nil => simp at hhd
  | cons c0 T' =>
    simp only [List.head?_cons, Option.some.injEq] at hhd
    rw [← hhd]
    exact List.mem_cons_self _ _

theorem nosep_of_alnum_digit {T : Str} {d : Char}
    (halnum : ∀ c ∈ T, isUpperAlnum c = true) (hdd : isDigitChar d = true) :
    ∀ c ∈ T ++ [d], (c == '-') = false ∧ isWsChar c = false := by
  intro c hc
  rcases List.mem_append.mp hc with hc | hc
  · have hf := upperAlnum_facts c (halnum c hc)
    exact ⟨hf.2.1, hf.2.2.1⟩
  · rw [List.mem_singleton.mp hc]
    exact ⟨(digit_facts d hdd).2.1, (digit_facts d hdd).2.2.1⟩

/-- With a trailing-digit guard, the pattern for an alphanumeric target `T`
does not match the text `T ++ [d]` for a digit `d`: the only core occurrence
is `T` itself, and it is followed by the digit the guard rejects. -/
theorem patFound_append_digit (T : Str) (hd d : Char)
    (halnum : ∀ c ∈ T, isUpperAlnum c = true)
    (hhd : T.head? = some hd) (hdd : isDigitChar d = true) :
    patFound ⟨isDigitChar hd, T, true⟩ (T ++ [d]) = false := by
  have hnosep := nosep_of_alnum_digit halnum hdd
  cases hsd : isDigitChar hd with
  | false =>
    rw [show patFound ⟨false, T, true⟩ (T ++ [d]) =
        (T ++ [d]).tails.any (fun s => coreMatchP (tailOk true) T s)
      from rfl]
    by_contra hcon
    rw [Bool.not_eq_false] at hcon
    obtain ⟨s, hsmem, hcm⟩ := List.any_eq_true.mp hcon
    obtain ⟨pre, hpre⟩ := (List.mem_tails _ _).mp hsmem
    have hsnosep : ∀ c ∈ s, (c == '-') = false ∧ isWsChar c = false :=
      fun c hc => hnosep c (by rw [← hpre]; exact List.mem_append_right pre hc)
    rw [coreMatchP_nosep (tailOk true) T s hsnosep] at hcm
    obtain ⟨rem, hseq, hk⟩ := hcm
    subst hseq
    have hlen : pre.length + rem.length = 1 := by
      have hl := congrArg List.length hpre
      simp only [List.length_append, List.length_cons, List.length_nil]
        at hl
      omega
    cases pre with
    | nil =>
      rw [List.nil_append] at hpre
      have hrem := List.append_cancel_left hpre
      rw [hrem, tailOk_digit d hdd] at hk
      cases hk
    | cons p0 pre' =>
      have hz : pre' = [] ∧ rem = [] := by
        simp only [List.length_cons] at hlen
        constructor <;>
          exact List.eq_nil_of_length_eq_zero (by omega)
      rw [hz.1, hz.2, List.append_nil] at hpre
      rw [List.cons_append, List.nil_append] at hpre
      obtain ⟨hall, hpd⟩ := cons_eq_append_singleton hpre
      have hhdp : hd = p0 := hall hd (head?_mem hhd)
      rw [hhdp, ← hpd, hdd] at hsd
      cases hsd
  | true =>
    rw [show patFound ⟨true, T, true⟩ (T ++ [d]) =
        (coreMatchP (tailOk true) T (T ++ [d]) ||
          guardScan (tailOk true) T (T ++ [d])) from rfl]
    have hc1 : coreMatchP (tailOk true) T (T ++ [d]) = false := by
      by_contra hcon
      rw [Bool.not_eq_false] at hcon
      rw [coreMatchP_nosep (tailOk true) T _ hnosep] at hcon
      obtain ⟨rem, hseq, hk⟩ := hcon
      have hrem := List.append_cancel_left hseq
      rw [← hrem, tailOk_digit d hdd] at hk
      cases hk
    have hc2 : guardScan (tailOk true) T (T ++ [d]) = false := by
      by_contra hcon
      rw [Bool.not_eq_false] at hcon
      obtain ⟨pre, c, rest, heq, hdc, hcm⟩ :=
        guardScan_struct (tailOk true) T (T ++ [d]) hcon
      have hrnosep : ∀ c' ∈ rest, (c' == '-') = false ∧ isWsChar c' = false := by
        intro c' hc'
        refine hnosep c' ?_
        rw [heq]
        exact List.mem_append_right pre (List.mem_cons_of_mem c hc')
      rw [coreMatchP_nosep (tailOk true) T rest hrnosep] at hcm
      obtain ⟨rem, hreq, hk⟩ := hcm
      subst hreq
      have hlen : pre.length + 1 + rem.length = 1 := by
        have hl := congrArg List.length heq
        simp only [List.length_append, List.length_cons, List.length_nil]
          at hl
        omega
      have hz : pre = [] ∧ rem = [] := by
        constructor <;> exact List.eq_nil_of_length_eq_zero (by omega)
      rw [hz.1, hz.2, List.append_nil, List.nil_append] at heq
      obtain ⟨hall, hcd⟩ := cons_eq_append_singleton heq.symm
      have hhdc : hd = c := hall hd (head?_mem hhd)
      rw [← hhdc, hsd] at hdc
      cases hdc
    rw [hc1, hc2]
    rfl

/-- With a leading-digit guard, the pattern for an alphanumeric target `T`
does not match the text `d :: T` for a digit `d`: the only core occurrence
is `T` itself, and it is preceded by the digit the guard rejects. -/
theorem patFound_prepend_digit (T : Str) (hd le d : Char)
    (halnum : ∀ c ∈ T, isUpperAlnum c = true)
    (hle : T.getLast? = some le)
    (hsd : isDigitChar hd = true) (hdd : isDigitChar d = true) :
    patFound ⟨isDigitChar hd, T, isDigitChar le⟩ (d :: T) = false := by
  have hnosep : ∀ c ∈ d :: T, (c == '-') = false ∧ isWsChar c = false := by
    intro c hc
    rcases List.mem_cons.mp hc with rfl | hc
    · exact ⟨(digit_facts c hdd).2.1, (digit_facts c hdd).2.2.1⟩
    · have hf := upperAlnum_facts c (halnum c hc)
      exact ⟨hf.2.1, hf.2.2.1⟩
  rw [hsd]
  rw [show patFound ⟨true, T, isDigitChar le⟩ (d :: T) =
      (coreMatchP (tailOk (isDigitChar le)) T (d :: T) ||
        guardScan (tailOk (isDigitChar le)) T (d :: T)) from rfl]
  have hc1 : coreMatchP (tailOk (isDigitChar le)) T (d :: T) = false := by
    by_contra hcon
    rw [Bool.not_eq_false] at hcon
    rw [coreMatchP_nosep _ T _ hnosep] at hcon
    obtain ⟨rem, hseq, hk⟩ := hcon
    have hlen : rem.length = 1 := by
      have hl := congrArg List.length hseq
      simp only [List.length_append, List.length_cons] at hl
      omega
    obtain ⟨r, hr⟩ := List.length_eq_one.mp hlen
    rw [hr] at hseq hk
    obtain ⟨hall, hrd⟩ := cons_eq_append_singleton hseq
    have hled : le = d := hall le (List.mem_of_getLast?_eq_some hle)
    rw [hrd, hled, hdd, tailOk_digit d hdd] at hk
    cases hk
  have hc2 : guardScan (tailOk (isDigitChar le)) T (d :: T) = false := by
    by_contra hcon
    rw [Bool.not_eq_false] at hcon
    obtain ⟨pre, c, rest, heq, hdc, hcm⟩ := guardScan_struct _ T _ hcon
    have hrnosep : ∀ c' ∈ rest,
        (c' == '-') = false ∧ isWsChar c' = false := by
      intro c' hc'
      refine hnosep c' ?_
      rw [heq]
      exact List.mem_append_right pre (List.mem_cons_of_mem c hc')
    rw [coreMatchP_nosep _ T rest hrnosep] at hcm
    obtain ⟨rem, hreq, hk⟩ := hcm
    subst hreq
    have hlen : pre.length + 1 + rem.length = 1 := by
      have hl := congrArg List.length heq
      simp only [List.length_append, List.length_cons] at hl
      omega
    have hz : pre = [] ∧ rem = [] :=
      ⟨List.eq_nil_of_length_eq_zero (by omega),
       List.eq_nil_of_length_eq_zero (by omega)⟩
    rw [hz.1, hz.2, List.append_nil, List.nil_append] at heq
    injection heq with h1 _
    rw [← h1, hdd] at hdc
    cases hdc
  rw [hc1, hc2]
  rfl

theorem patFound_gap (T S : Str) (sd ed : Bool) (hg : isGapIns T S = true) :
    patFound ⟨sd, T, ed⟩ S = true := by
  have hcore : coreMatchP (tailOk ed) T S = true := by
    have h := coreMatchP_gap (tailOk ed) T S [] hg (tailOk_nil ed)
    simpa using h
  cases sd with
  | false =>
    rw [show patFound ⟨false, T, ed⟩ S =
        S.tails.any (fun s => coreMatchP (tailOk ed) T s) from rfl]
    rw [List.any_eq_true]
    exact ⟨S, (List.mem_tails _ _).mpr (List.suffix_refl S), hcore⟩
  | true =>
    rw [show patFound ⟨true, T, ed⟩ S =
        (coreMatchP (tailOk ed) T S || guardScan (tailOk ed) T S) from rfl]
    rw [hcore]
    rfl

/-- Claim C2 (amended): for a non-empty target `T` made of *uppercase*
letters and digits, the compiled pattern matches `T` itself and every string
obtained from `T` by inserting a single hyphen or a single space between any
subset of adjacent character pairs; when `T` ends in a digit the pattern
does not match `T` immediately followed by a further digit (`C100` inside
`C1000`), and when `T` starts with a digit it does not match `T` immediately
preceded by a digit (`150D` inside `2150D`).  The original claim quantifies
over all alphanumeric `T`; a lowercase target does not match itself, because
`generate_regex` uppercases the target but not the scanned text — see the
counterexample. -/
theorem C2_pattern_generation (T : Str) (p : Pattern) (hd le : Char)
    (_hne : T ≠ []) (halnum : ∀ c ∈ T, isUpperAlnum c = true)
    (hhd : T.head? = some hd) (hle : T.getLast? = some le)
    (hp : generate_regex T = .ok p) :
    patFound p T = true ∧
    (∀ S, isGapIns T S = true → patFound p S = true) ∧
    (∀ d, isDigitChar d = true → isDigitChar le = true →
      patFound p (T ++ [d]) = false) ∧
    (∀ d, isDigitChar d = true → isDigitChar hd = true →
      patFound p (d :: T) = false) := by
  have hpp := generate_regex_alnum T p hd le halnum hp hhd hle
  subst hpp
  refine ⟨?_, ?_, ?_, ?_⟩
  · exact patFound_gap T T _ _ (isGapIns_refl T)
  · intro S hgS
    exact patFound_gap T S _ _ hgS
  · intro d hdd hled
    rw [hled]
    exact patFound_append_digit T hd d halnum hhd hdd
  · intro d hdd hhdd
    exact patFound_prepend_digit T hd le d halnum hle hhdd hdd

/-- Counterexample for C2: `"ab"` is a non-empty alphanumeric target, but
the pattern generated for it (uppercased to `(A-?\s?B)`) does not match the
string `"ab"` itself — matching is case-sensitive and only the *caller*
uppercases search text. -/
theorem C2_counterexample :
    "ab".data ≠ [] ∧
    (∀ c ∈ "ab".data, c.isAlphanum = true) ∧
    (generate_regex "ab".data).map (fun p => patFound p "ab".data)
      = .ok false := by
  exact ⟨by decide, by decide, by decide⟩

/-- Witness for C2 at the target `"1A5"`, which exercises both digit
guards. -/
theorem C2_witness :
    patFound ⟨true, "1A5".data, true⟩ "1A5".data = true ∧
    patFound ⟨true, "1A5".data, true⟩ "1 A-5".data = true ∧
    patFound ⟨true, "1A5".data, true⟩ ("1A5".data ++ ['7']) = false ∧
    patFound ⟨true, "1A5".data, true⟩ ('7' :: "1A5".data) = false := by
  have h := C2_pattern_generation "1A5".data ⟨true, "1A5".data, true⟩
    '1' '5' (by decide) (by decide) rfl (by decide) (by decide)
  exact ⟨h.1, h.2.1 "1 A-5".data (by decide),
    h.2.2.1 '7' (by decide) (by decide), h.2.2.2 '7' (by decide) (by decide)⟩

theorem phase1_malformed :
    ∀ (recs : List ProductRec) (acc : DD0 × MW),
      (∃ bad ∈ recs, bad.manufacturer = none ∨ bad.model = none) →
      phase1 recs acc = .error .keyError := by
  intro recs
  induction recs with
  | nil =>
    intro acc h
    obtain ⟨bad, hmem, -⟩ := h
    simp at hmem
  | cons r rest ih =>
    intro acc h
    obtain ⟨d0, mw⟩ := acc
    cases hman : r.manufacturer with
    | none => simp [phase1, hman]
    | some mstr =>
      cases hmod : r.model with
      | none => simp [phase1, hman, hmod]
      | some model0 =>
        obtain ⟨bad, hmem, hbad⟩ := h
        have hbrest : bad ∈ rest := by
          rcases List.mem_cons.mp hmem with rfl | hb
          · rcases hbad with hb | hb
            · rw [hman] at hb; cases hb
            · rw [hmod] at hb; cases hb
          · exact hb
        simp only [phase1, hman, hmod]
        exact ih _ ⟨bad, hbrest, hbad⟩

theorem match_listing_malformed (l : ListingRec) (d : DD)
    (h : l.title = none ∨ l.manufacturer = none) :
    match_listing l d = .error .keyError := by
  cases ht : l.title with
  | none =>
    unfold match_listing
    rw [ht]
  | some t =>
    have hm : l.manufacturer = none := by
      rcases h with h | h
      · rw [ht] at h
        cases h
      · exact h
    unfold match_listing
    rw [ht]
    show (match l.manufacturer with
        | none => (Except.error PyErr.keyError : Except PyErr (DD × Str))
        | some m => match_listing_body t m d) = .error .keyError
    rw [hm]

theorem match_all_go_malformed (badl : ListingRec)
    (hbad : badl.title = none ∨ badl.manufacturer = none) :
    ∀ (ls1 ls2 : List ListingRec) (d : DD)
      (res : List (Str × List ListingRec)),
      (∀ l ∈ ls1, ∃ t mn, l.title = some t ∧ l.manufacturer = some mn ∧
        ∃ c, c ∈ t ∧ isWsChar c = false) →
      match_all_go d (ls1 ++ badl :: ls2) res = .error .keyError := by
  intro ls1
  induction ls1 with
  | nil =>
    intro ls2 d res _
    rw [List.nil_append]
    have hgo : match_all_go d (badl :: ls2) res =
        match match_listing badl d with
        | .error e => .error e
        | .ok (dd, name) =>
          match_all_go dd ls2
            (if name == noneStr then res else alAppend res name badl) := rfl
    rw [hgo, match_listing_malformed badl d hbad]
  | cons l ls1' ih =>
    intro ls2 d res hwf
    obtain ⟨t, mn, h1, h2, hnb⟩ := hwf l (List.mem_cons_self l ls1')
    obtain ⟨r, hok⟩ := match_listing_ok_of_title l d t mn h1 h2 hnb
    obtain ⟨d2, name⟩ := r
    rw [List.cons_append]
    have hgo : match_all_go d (l :: (ls1' ++ badl :: ls2)) res =
        match match_listing l d with
        | .error e => .error e
        | .ok (dd, nm) =>
          match_all_go dd (ls1' ++ badl :: ls2)
            (if nm == noneStr then res else alAppend res nm l) := rfl
    rw [hgo, hok]
    exact ih ls2 d2 _ (fun x hx => hwf x (List.mem_cons_of_mem l hx))

/-- Claim C8 (amended): a malformed record — a listing missing its `title`
or its `manufacturer` field, or a product missing its `manufacturer` or
`model` field — is not rejected with a diagnostic: the `KeyError` raised by
the field access aborts the whole batch.  A malformed product anywhere in
the catalog makes `load_products` raise, whatever records surround it; and
a malformed listing makes `match_all` raise as soon as it is reached (the
listings before it being well-formed with non-blank titles), whatever
listings follow it — so the records after the malformed one are never
indexed or matched. -/
theorem C8_malformed_aborts :
    (∀ (l1 : List ProductRec) (bad : ProductRec) (l2 : List ProductRec),
      bad.manufacturer = none ∨ bad.model = none →
      load_products (l1 ++ bad :: l2) = .error .keyError) ∧
    (∀ (prods : List ProductRec) (d : DD) (ls1 : List ListingRec)
        (badl : ListingRec) (ls2 : List ListingRec),
      load_products prods = .ok d →
      (∀ l ∈ ls1, ∃ t mn, l.title = some t ∧ l.manufacturer = some mn ∧
        ∃ c, c ∈ t ∧ isWsChar c = false) →
      badl.title = none ∨ badl.manufacturer = none →
      match_all prods (ls1 ++ badl :: ls2) = .error .keyError) := by
  constructor
  · intro l1 bad l2 hbad
    have hph : phase1 (l1 ++ bad :: l2) ([], []) = .error .keyError :=
      phase1_malformed (l1 ++ bad :: l2) ([], [])
        ⟨bad, List.mem_append_right l1 (List.mem_cons_self bad l2), hbad⟩
    unfold load_products
    rw [hph]
  · intro prods d ls1 badl ls2 hload hwf hbad
    unfold match_all
    cases hl : load_products prods with
    | error er =>
      rw [hl] at hload
      cases hload
    | ok d2 =>
      rw [hl] at hload
      cases hload
      exact match_all_go_malformed badl hbad ls1 ls2 _ [] hwf

/-- Witness for C8: a malformed product in second position aborts the
load, and a listing carrying a title but no manufacturer field, in second
position, aborts the matching run before the third listing is reached. -/
theorem C8_witness :
    load_products [canonRec, ⟨some "Acme".data, none, none, "Acme_X".data⟩]
      = .error .keyError ∧
    match_all [canonRec]
      [canonListing, ⟨some "Canon PowerShot 100".data, none⟩, canonListing]
      = .error .keyError := by
  constructor
  · exact C8_malformed_aborts.1 [canonRec]
      ⟨some "Acme".data, none, none, "Acme_X".data⟩ [] (Or.inr rfl)
  · exact C8_malformed_aborts.2 [canonRec] canonIndex [canonListing]
      ⟨some "Canon PowerShot 100".data, none⟩ [canonListing] (by decide)
      (by
        intro l hl
        rw [List.mem_singleton.mp hl]
        exact ⟨_, _, rfl, rfl, ⟨'C', by decide, by decide⟩⟩)
      (Or.inr rfl)
